import Mathlib

/-!
Verification of the storage-engine contract exercised by the NWB tutorial
notebooks.  The notebooks themselves are tutorial glue over an external
data-model library (pynwb/hdmf over HDF5); the engine they exercise is not
present in the repository.  Following the specification document, the engine
is modelled here from the spec's own words (typed value codec, hierarchical
container tree, dynamic tables with atomic row append, ragged columns, table
region references, lazy array views, and session lifetime), and the spec's
testable properties are proved against that model.
-/

namespace NWB

/-- Modelled from the spec: the error taxonomy of section 7.  The engine is
absent from the repository; the names are the spec's. -/
inductive Err where
  | NameCollision
  | NotFound
  | InvalidHandle
  | ReadOnlyViolation
  | TypeMismatch
  | CorruptData
  | IndexOutOfRange
  | ColumnExists
  | MissingColumnValue
  | UnknownColumn
  | IncompleteBackfill
  | InconsistentMaskMode
  | DanglingReference
  | ResourceBusy
  deriving DecidableEq, Repr

/-- Modelled from the spec: scalar values handled by the Typed Value Codec
(section 4.1): integers, IEEE floats (carried as their 64-bit pattern, so
that bit-for-bit identity is expressible), UTF-8 strings and booleans. -/
inductive Value where
  | int (i : Int)
  | float (bits : Nat)
  | str (s : String)
  | bool (b : Bool)
  deriving DecidableEq, Repr

/-- Modelled from the spec: the type tags of the codec (section 4.1). -/
inductive TypeTag where
  | tagInt
  | tagFloat
  | tagStr
  | tagBool
  deriving DecidableEq, Repr

/-- The tag a value carries. -/
def valTag : Value → TypeTag
  | .int _ => .tagInt
  | .float _ => .tagFloat
  | .str _ => .tagStr
  | .bool _ => .tagBool

/-- Little-endian base-256 digits of a natural number, with explicit fuel so
that the definition is structurally recursive (the fuel `n` always
suffices). -/
def natToBytesF : Nat → Nat → List Nat
  | 0, _ => []
  | fuel + 1, n => if n = 0 then [] else n % 256 :: natToBytesF fuel (n / 256)

/-- Little-endian base-256 encoding of a natural number. -/
def natToBytes (n : Nat) : List Nat :=
  natToBytesF n n

/-- Decode little-endian base-256 digits. -/
def bytesToNat : List Nat → Nat
  | [] => 0
  | b :: bs => b + 256 * bytesToNat bs

/-- Modelled from the spec: `encode(value, type_tag) -> bytes region`
(section 4.1).  Integers are a sign byte followed by the magnitude, floats
are their 8-byte IEEE bit pattern, strings are their character codes,
booleans one byte. -/
def encVal : Value → List Nat
  | .int i => (if i < 0 then 1 else 0) :: natToBytes i.natAbs
  | .float bits => natToBytes bits
  | .str s => s.data.map Char.toNat
  | .bool b => [if b then 1 else 0]

/-- Modelled from the spec: `decode(bytes region, type_tag, shape) -> value`
(section 4.1); fails with `TypeMismatch`/`CorruptData` when the region does
not parse under the tag. -/
def decVal : TypeTag → List Nat → Except Err Value
  | .tagInt, [] => .error .CorruptData
  | .tagInt, sign :: mag =>
      .ok (.int (if sign = 1 then -(bytesToNat mag : Int) else (bytesToNat mag : Int)))
  | .tagFloat, bs => .ok (.float (bytesToNat bs))
  | .tagStr, bs => .ok (.str ⟨bs.map Char.ofNat⟩)
  | .tagBool, [b] => .ok (.bool (b = 1))
  | .tagBool, _ => .error .CorruptData

/-! ### The hierarchical container tree and the Session write/read pass

Modelled from the spec (sections 3, 4.3, 4.6): an in-memory tree of named
Groups and typed Datasets.  Dynamic Tables are specialized Groups whose
column datasets are siblings under the table's Group, so the tree below
covers Group/Dataset/Table trees.  `commitN` is the single-pass serializer
a write-mode Session runs on commit (every value goes through the codec);
`readBackN` is the read-mode reconstruction, decoding every region under
the dataset's stored type tag. -/
mutual

inductive Node where
  | dataset (tag : TypeTag) (vals : List Value)
  | group (children : Children)
  deriving DecidableEq, Repr

inductive Children where
  | nil
  | cons (name : String) (child : Node) (rest : Children)
  deriving DecidableEq, Repr

end

/-! Modelled from the spec: the committed on-storage form of a tree, datasets
holding one encoded byte region per value, tagged with the element type. -/
mutual

inductive FNode where
  | fdataset (tag : TypeTag) (regions : List (List Nat))
  | fgroup (children : FChildren)
  deriving DecidableEq, Repr

inductive FChildren where
  | nil
  | cons (name : String) (child : FNode) (rest : FChildren)
  deriving DecidableEq, Repr

end

/-! A dataset is well typed when every value matches the dataset's tag
(spec section 3: datasets are homogeneous-typed). -/
mutual

def wellTypedN : Node → Bool
  | .dataset tag vals => vals.all (fun v => valTag v = tag)
  | .group cs => wellTypedC cs

def wellTypedC : Children → Bool
  | .nil => true
  | .cons _ c rest => wellTypedN c && wellTypedC rest

end

/-! Modelled from the spec: `Session.commit()` serializes the whole tree in
one pass through the codec (sections 4.1, 4.6). -/
mutual

def commitN : Node → FNode
  | .dataset tag vals => .fdataset tag (vals.map encVal)
  | .group cs => .fgroup (commitC cs)

def commitC : Children → FChildren
  | .nil => .nil
  | .cons name c rest => .cons name (commitN c) (commitC rest)

end

/-- Decode every region of a dataset under one tag. -/
def decRegions (tag : TypeTag) : List (List Nat) → Except Err (List Value)
  | [] => .ok []
  | r :: rs =>
    match decVal tag r with
    | .error e => .error e
    | .ok v =>
      match decRegions tag rs with
      | .error e => .error e
      | .ok vs => .ok (v :: vs)

/-! Modelled from the spec: reopening in read mode reconstructs the tree,
decoding each dataset's regions under its stored tag (sections 4.1, 4.6). -/
mutual

def readBackN : FNode → Except Err Node
  | .fdataset tag regions =>
    match decRegions tag regions with
    | .error e => .error e
    | .ok vs => .ok (.dataset tag vs)
  | .fgroup cs =>
    match readBackC cs with
    | .error e => .error e
    | .ok cs2 => .ok (.group cs2)

def readBackC : FChildren → Except Err Children
  | .nil => .ok .nil
  | .cons name c rest =>
    match readBackN c with
    | .error e => .error e
    | .ok c2 =>
      match readBackC rest with
      | .error e => .error e
      | .ok rest2 => .ok (.cons name c2 rest2)

end

/-! ### Dynamic Tables

Modelled from the spec (sections 3, 4.4): an ordered list of named columns,
each backed by a flat dataset (one value per row) or a ragged/indexed
dataset (concatenated data plus one cumulative end offset per row).
`addRow` validates and buffers before committing any write, so a failed
call leaves the table untouched. -/
/-- Modelled from the spec: a column's backing dataset, flat or ragged. -/
inductive ColData where
  | flat (vals : List Value)
  | ragged (data : List Value) (index : List Nat)
  deriving DecidableEq, Repr

/-- A named column of a Dynamic Table. -/
structure Column where
  name : String
  cdata : ColData
  deriving DecidableEq, Repr

/-- The value supplied for one column in an `addRow` call: a scalar for a
flat column, a variable-length sequence for a ragged column. -/
inductive Cell where
  | scalar (v : Value)
  | seq (vs : List Value)
  deriving DecidableEq, Repr

/-- Modelled from the spec: a Dynamic Table is its ordered list of columns
(declaration order is significant, section 4.4). -/
structure DynamicTable where
  cols : List Column
  deriving DecidableEq, Repr

/-- The number of rows a column's backing dataset holds: flat columns one
value per row, ragged columns one index entry per row. -/
def colLen : ColData → Nat
  | .flat vs => vs.length
  | .ragged _ idx => idx.length

/-- The table's current row count (the first column's length; the row-count
invariant makes all columns agree). -/
def rowCount (t : DynamicTable) : Nat :=
  match t.cols with
  | [] => 0
  | c :: _ => colLen c.cdata

/-- Append the supplied cell to one column's backing dataset; fails when the
cell kind does not fit the column's storage mode. -/
def appendToCol (c : Column) (cell : Cell) : Except Err Column :=
  match c.cdata, cell with
  | .flat vs, .scalar v => .ok ⟨c.name, .flat (vs ++ [v])⟩
  | .ragged d idx, .seq vs => .ok ⟨c.name, .ragged (d ++ vs) (idx ++ [d.length + vs.length])⟩
  | _, _ => .error .TypeMismatch

/-- Look up the cell supplied for a column name. -/
def lookupCell (vals : List (String × Cell)) (name : String) : Option Cell :=
  match vals with
  | [] => none
  | (k, cell) :: rest => if k = name then some cell else lookupCell rest name

/-- One `addRow` call supplies a mapping column name → cell. -/
abbrev RowInput := List (String × Cell)

/-- Build the updated column list aside (the spec's buffer-and-validate);
fails `MissingColumnValue` when a column has no supplied cell, and
propagates any single column-append failure without touching the table. -/
def appendAll (vals : RowInput) : List Column → Except Err (List Column)
  | [] => .ok []
  | c :: cs =>
    match lookupCell vals c.name with
    | none => .error .MissingColumnValue
    | some cell =>
      match appendToCol c cell with
      | .error e => .error e
      | .ok c2 =>
        match appendAll vals cs with
        | .error e => .error e
        | .ok cs2 => .ok (c2 :: cs2)

/-- Does the table declare a column with this name? -/
def hasCol (t : DynamicTable) (name : String) : Bool :=
  t.cols.any (fun c => c.name = name)

/-- Modelled from the spec: `addRow` (section 4.4).  Fails `UnknownColumn`
when a supplied key names no declared column, `MissingColumnValue` when a
column has no supplied value; otherwise the whole updated column list is
built aside and installed only when every single append succeeded. -/
def addRow (t : DynamicTable) (vals : RowInput) : Except Err DynamicTable :=
  if vals.all (fun kv => hasCol t kv.1) then
    match appendAll vals t.cols with
    | .error e => .error e
    | .ok cs => .ok ⟨cs⟩
  else .error .UnknownColumn

/-- The observable state transition of one `addRow` call: a failing call
returns the table unchanged together with the error. -/
def addRowSt (t : DynamicTable) (vals : RowInput) : DynamicTable × Option Err :=
  match addRow t vals with
  | .ok t2 => (t2, none)
  | .error e => (t, some e)

/-- Run a sequence of `addRow` calls, skipping failed ones, and count the
successful calls. -/
def runAddRows (t : DynamicTable) : List RowInput → DynamicTable × Nat
  | [] => (t, 0)
  | r :: rs =>
    match addRow t r with
    | .ok t2 =>
      let p := runAddRows t2 rs
      (p.1, p.2 + 1)
    | .error _ => runAddRows t rs

/-! ### ROI mask-mode exclusivity

Modelled from the spec (section 4.4, ROI-mask special case): a plane
segmentation table supports two alternative mask representations; the first
added row locks the table to its representation. -/
/-- The two ROI mask representations. -/
inductive MaskMode where
  | image
  | pixel
  deriving DecidableEq, Repr

/-- A mask supplied to `addRoi`: a dense per-row image mask, or a ragged
list of (x, y, weight) triples. -/
inductive MaskInput where
  | image (mask : List (List Nat))
  | pixel (triples : List (Nat × Nat × Nat))
  deriving DecidableEq, Repr

/-- The representation an input uses. -/
def maskModeOf : MaskInput → MaskMode
  | .image _ => .image
  | .pixel _ => .pixel

/-- Modelled from the spec: an ROI table supporting both mask
representations; `mode` records the representation the first row chose. -/
structure PlaneSeg where
  mode : Option MaskMode
  imageMasks : List (List (List Nat))
  pixelMasks : List (List (Nat × Nat × Nat))
  deriving DecidableEq, Repr

/-- The ROI table's row count. -/
def PlaneSeg.rows (ps : PlaneSeg) : Nat :=
  ps.imageMasks.length + ps.pixelMasks.length

/-- Modelled from the spec: `add_roi`.  A fresh table accepts either
representation and locks to it; afterwards a row in the other
representation fails `InconsistentMaskMode`. -/
def addRoi (ps : PlaneSeg) (m : MaskInput) : Except Err PlaneSeg :=
  match ps.mode with
  | none =>
    match m with
    | .image mk => .ok ⟨some .image, ps.imageMasks ++ [mk], ps.pixelMasks⟩
    | .pixel mk => .ok ⟨some .pixel, ps.imageMasks, ps.pixelMasks ++ [mk]⟩
  | some mo =>
    if maskModeOf m = mo then
      match m with
      | .image mk => .ok ⟨some mo, ps.imageMasks ++ [mk], ps.pixelMasks⟩
      | .pixel mk => .ok ⟨some mo, ps.imageMasks, ps.pixelMasks ++ [mk]⟩
    else .error .InconsistentMaskMode

/-- Run a sequence of `addRoi` calls, stopping at the first failure. -/
def addRoiSeq (ps : PlaneSeg) : List MaskInput → Except Err PlaneSeg
  | [] => .ok ps
  | m :: ms =>
    match addRoi ps m with
    | .error e => .error e
    | .ok ps2 => addRoiSeq ps2 ms

/-! ### Table Region References

Modelled from the spec (sections 4.4, 4.5): a region names a table's rows by
index; creation bounds-checks against the current row count, and resolution
yields the referenced rows in the supplied order. -/
instance : Inhabited Value := ⟨.int 0⟩

/-- Read row `i` of a ragged column: the data between the previous row's end
offset and this row's end offset. -/
def raggedGet (d : List Value) (idx : List Nat) (i : Nat) : List Value :=
  let lo := if i = 0 then 0 else idx.getD (i - 1) 0
  let hi := idx.getD i 0
  (d.drop lo).take (hi - lo)

/-- The cell of a column at a row index. -/
def getCellAt (c : Column) (i : Nat) : Cell :=
  match c.cdata with
  | .flat vs => .scalar (vs.getD i (.int 0))
  | .ragged d idx => .seq (raggedGet d idx i)

/-- Row `i` of a table, as a mapping column name → cell. -/
def getRow (t : DynamicTable) (i : Nat) : List (String × Cell) :=
  t.cols.map (fun c => (c.name, getCellAt c i))

/-- Modelled from the spec: a Table Region Reference (section 3): an ordered
list of row indices plus a description. -/
structure TableRegion where
  indices : List Nat
  description : String
  deriving DecidableEq, Repr

/-- Modelled from the spec: `createRegion` (section 4.4): fails
`IndexOutOfRange` if any index is at or beyond the current row count. -/
def createRegion (t : DynamicTable) (idx : List Nat) (desc : String) : Except Err TableRegion :=
  if idx.all (fun i => i < rowCount t) then .ok ⟨idx, desc⟩ else .error .IndexOutOfRange

/-- Modelled from the spec: `resolve` (section 4.5): re-checks the indices
against the table and yields the referenced rows in the region's order. -/
def resolveRegion (t : DynamicTable) (r : TableRegion) :
    Except Err (List (List (String × Cell))) :=
  if r.indices.all (fun i => i < rowCount t) then .ok (r.indices.map (getRow t))
  else .error .IndexOutOfRange

/-! ### Ragged (indexed) columns

The cumulative end offsets a ragged column accumulates when the given
sequences are appended one per row, and the fact that reading row `i` back
recovers exactly the `i`-th supplied sequence. -/
/-- Cumulative end offsets for sequences appended after `n` data elements. -/
def endOffsets (n : Nat) : List (List Value) → List Nat
  | [] => []
  | s :: ss => (n + s.length) :: endOffsets (n + s.length) ss

/-! ### The units table of the tutorials

The ecephys tutorial populates a units table by repeated `add_unit` calls,
each supplying a variable-length spike-time sequence (ragged column
`spike_times`) and a scalar `quality`; reading `spike_times` at row `i`
then returns only the `i`-th unit's spike times. -/
/-- The row input of one `add_unit` call. -/
def unitRow (s : List Value) (q : Value) : RowInput :=
  [("spike_times", .seq s), ("quality", .scalar q)]

/-- The empty units table: a ragged `spike_times` column and a flat
`quality` column. -/
def unitsTable0 : DynamicTable :=
  ⟨[⟨"spike_times", .ragged [] []⟩, ⟨"quality", .flat []⟩]⟩

/-- Add units one by one through the table's `addRow` transition. -/
def addUnits (t : DynamicTable) : List (List Value × Value) → DynamicTable
  | [] => t
  | (s, q) :: rest => addUnits (addRowSt t (unitRow s q)).1 rest

/-- Reading the ragged `spike_times` column of a units-shaped table at a
row index. -/
def spikeTimesAt (t : DynamicTable) (i : Nat) : List Value :=
  match t.cols with
  | ⟨_, .ragged d idx⟩ :: _ => raggedGet d idx i
  | _ => []

/-! ### Lazy Array Views

Modelled from the spec (section 4.2): a stateless handle over a dataset's
stored bytes, with `readAll` and `readSlice` materializing nested arrays on
demand.  Storage is a flat row-major value list plus a shape; a slice is a
`(start, stop, step)` range per dimension, Python-style. -/
/-- Modelled from the spec: a Lazy Array View: a dataset's shape and its
flat row-major stored values; every access takes explicit indices. -/
structure LazyView where
  shape : List Nat
  flat : List Value
  deriving DecidableEq, Repr

/-- Product of the dimensions. -/
def listProd : List Nat → Nat
  | [] => 1
  | d :: ds => d * listProd ds

/-- Row-major offset of a multi-index in a shape. -/
def offsetOf : List Nat → List Nat → Nat
  | _ :: ds, i :: is => i * listProd ds + offsetOf ds is
  | _, _ => 0

/-- Fetch one element from storage by multi-index. -/
def fetch (v : LazyView) (idx : List Nat) : Value :=
  v.flat.getD (offsetOf v.shape idx) (.int 0)

/-- A materialized n-dimensional array: nested lists with scalar leaves. -/
inductive NDArr where
  | leaf (v : Value)
  | node (children : List NDArr)

/-- The number of indices selected by a `(start, stop, step)` range,
Python-style: ceil((stop - start) / step) when positive, else zero. -/
def rangeLen (s t st : Nat) : Nat :=
  (t - s + st - 1) / st

/-- The indices selected by a `(start, stop, step)` range, in order. -/
def rangeList (s t st : Nat) : List Nat :=
  (List.range (rangeLen s t st)).map (fun k => s + k * st)

/-- The per-dimension index lists a list of ranges selects. -/
def dimsOfRanges (rs : List (Nat × Nat × Nat)) : List (List Nat) :=
  rs.map (fun r => rangeList r.1 r.2.1 r.2.2)

/-- Materialize the sub-array of the storage selected by one index list per
dimension (innermost dimension last). -/
def matArr (get : List Nat → Value) : List (List Nat) → NDArr
  | [] => .leaf (get [])
  | idxs :: rest => .node (idxs.map (fun i => matArr (fun is => get (i :: is)) rest))

/-- Modelled from the spec: `readAll` materializes the whole array. -/
def readAll (v : LazyView) : NDArr :=
  matArr (fetch v) (v.shape.map List.range)

/-- Do the ranges fit the shape?  One range per dimension, positive step,
stop within the dimension. -/
def rangesOk (rs : List (Nat × Nat × Nat)) (shape : List Nat) : Bool :=
  rs.length = shape.length &&
    (List.zip rs shape).all (fun p => 0 < p.1.2.2 && p.1.2.1 ≤ p.2)

/-- Modelled from the spec: `readSlice` materializes the selected sub-array,
failing `IndexOutOfRange` when the ranges exceed the dataset's shape. -/
def readSlice (v : LazyView) (rs : List (Nat × Nat × Nat)) : Except Err NDArr :=
  if rangesOk rs v.shape then .ok (matArr (fetch v) (dimsOfRanges rs))
  else .error .IndexOutOfRange

/-- Apply ranges to an already-materialized array, level by level. -/
def sliceND : List (Nat × Nat × Nat) → NDArr → NDArr
  | [], a => a
  | r :: rs, .node cs =>
    .node ((rangeList r.1 r.2.1 r.2.2).map (fun i => sliceND rs (cs.getD i (.node []))))
  | _ :: _, .leaf v => .leaf v

/-- Does a materialized array have this rank (uniform nesting depth)? -/
def hasRank : Nat → NDArr → Bool
  | 0, .leaf _ => true
  | n + 1, .node cs => cs.all (hasRank n)
  | _, _ => false

/-- The number of scalar elements of an array of known rank. -/
def ndCount : Nat → NDArr → Nat
  | 0, .leaf _ => 1
  | 0, .node _ => 0
  | n + 1, .node cs => (cs.map (ndCount n)).sum
  | _ + 1, .leaf _ => 0

/-! ### Sessions and handle lifetime

Modelled from the spec (sections 4.6, 5): a Session owns one open file; all
handles (Lazy Array Views, Group/Dataset handles, region resolutions)
obtained through it carry its session id and are guarded by its open flag.
`close` clears the flag; later `open` calls create fresh sessions with
fresh ids and never resurrect a closed one. -/
/-- The world's session table: slot `i` records whether session `i` is
still open. -/
structure World where
  sessions : List Bool
  deriving DecidableEq, Repr

/-- Modelled from the spec: `open` creates a fresh session (a new id, open),
returning the world and the new session's id. -/
def openSession (w : World) : World × Nat :=
  (⟨w.sessions ++ [true]⟩, w.sessions.length)

/-- Modelled from the spec: `Session.close()` clears the session's open
flag (releasing every handle scoped to it). -/
def closeSession (w : World) (i : Nat) : World :=
  ⟨w.sessions.set i false⟩

/-- A world operation: opening a new session or closing some session. -/
inductive WOp where
  | wopen
  | wclose (j : Nat)
  deriving DecidableEq, Repr

/-- Apply one world operation. -/
def applyWOp (w : World) : WOp → World
  | .wopen => (openSession w).1
  | .wclose j => closeSession w j

/-- Apply a sequence of world operations. -/
def applyWOps (w : World) : List WOp → World
  | [] => w
  | op :: ops => applyWOps (applyWOp w op) ops

/-- Is the handle's owning session still open? -/
def handleLive (w : World) (i : Nat) : Bool :=
  w.sessions.getD i false

/-- Modelled from the spec: any operation through a handle owned by session
`i` (a dataset read, a view slice, a region resolution) first checks the
session and fails `InvalidHandle` when it was closed. -/
def handleOp {α : Type} (w : World) (i : Nat) (op : Unit → Except Err α) : Except Err α :=
  if handleLive w i then op () else .error .InvalidHandle

/-! ### Default names of multi-container objects

Modelled from the tutorials: `Position(spatial_series=...)` notes that the
name is set to `'Position'` by default, and the read-back cells look
`Fluorescence` up under `processing['ophys']` by its default name
`'Fluorescence'`. -/
/-- The multi-container types the tutorials construct without a name. -/
inductive MCType where
  | position
  | fluorescence
  | lfp
  | imageSegmentation
  | motionCorrection
  deriving DecidableEq, Repr

/-- Modelled from the spec: the fixed default name of a multi-container
type is its type name. -/
def mcDefaultName : MCType → String
  | .position => "Position"
  | .fluorescence => "Fluorescence"
  | .lfp => "LFP"
  | .imageSegmentation => "ImageSegmentation"
  | .motionCorrection => "MotionCorrection"

/-- Construct a multi-container: the optional explicit name defaults to the
type's fixed default name; its contents form a Group. -/
def mkMultiContainer (t : MCType) (name : Option String) (contents : Children) :
    String × Node :=
  (name.getD (mcDefaultName t), .group contents)

/-- Modelled from the spec: `getChild(name)`, failing `NotFound` (section
4.3). -/
def getChildE : Children → String → Except Err Node
  | .nil, _ => .error .NotFound
  | .cons nm c rest, name => if nm = name then .ok c else getChildE rest name

/-- The values a dataset node holds. -/
def datasetVals : Node → List Value
  | .dataset _ vs => vs
  | .group _ => []

/-- Concatenation of sibling lists. -/
def appendC : Children → Children → Children
  | .nil, cs => cs
  | .cons nm c rest, cs => .cons nm c (appendC rest cs)

/-- The names the siblings use, in order. -/
def namesC : Children → List String
  | .nil => []
  | .cons nm _ rest => nm :: namesC rest

/-! ### Concrete tutorial instances used as witnesses

The float bit patterns are the IEEE double patterns of 1.0, 5.0, 6.0 and
10.0, the trial start/stop times of the tutorials. -/
/-- The children of the committed trials table: `start_time`, `stop_time`
and the custom boolean column `correct`, rows (1.0, 5.0, true) and
(6.0, 10.0, false). -/
def trialsChildren : Children :=
  .cons "start_time"
    (.dataset .tagFloat [.float 4607182418800017408, .float 4618441417868443648])
    (.cons "stop_time"
      (.dataset .tagFloat [.float 4617315517961601024, .float 4621819117588971520])
      (.cons "correct" (.dataset .tagBool [.bool true, .bool false]) .nil))

/-- The trials table as a committed tree. -/
def trialsTree : Node :=
  .group trialsChildren

/-- An empty trials-like Dynamic Table. -/
def trialsTable0 : DynamicTable :=
  ⟨[⟨"start_time", .flat []⟩, ⟨"stop_time", .flat []⟩, ⟨"correct", .flat []⟩]⟩

/-- The two `add_trial` rows of the tutorials, plus one malformed row (an
undeclared column) whose call fails and is not counted. -/
def trialRowsW : List RowInput :=
  [[("start_time", .scalar (.float 4607182418800017408)),
    ("stop_time", .scalar (.float 4617315517961601024)),
    ("correct", .scalar (.bool true))],
   [("start_time", .scalar (.float 4618441417868443648)),
    ("stop_time", .scalar (.float 4621819117588971520)),
    ("correct", .scalar (.bool false))],
   [("bogus", .scalar (.int 0))]]

/-- The trials table after the two tutorial rows. -/
def trialsTable2 : DynamicTable :=
  ⟨[⟨"start_time", .flat [.float 4607182418800017408, .float 4618441417868443648]⟩,
    ⟨"stop_time", .flat [.float 4617315517961601024, .float 4621819117588971520]⟩,
    ⟨"correct", .flat [.bool true, .bool false]⟩]⟩

/-- A well-formed third trial row. -/
def goodRowW : RowInput :=
  [("start_time", .scalar (.float 1)), ("stop_time", .scalar (.float 2)),
   ("correct", .scalar (.bool true))]

/-- A row naming an undeclared column. -/
def badRowW : RowInput :=
  [("bogus", .scalar (.int 0))]

/-- A fresh plane segmentation table. -/
def psFresh : PlaneSeg :=
  ⟨none, [], []⟩

/-- A small concrete image mask. -/
def imageInputW : MaskInput :=
  .image [[1, 0], [0, 1]]

/-- A small concrete pixel mask. -/
def pixelInputW : MaskInput :=
  .pixel [(0, 0, 1), (1, 1, 1)]

/-- The plane segmentation table after one image-mask row. -/
def psImage1 : PlaneSeg :=
  ⟨some .image, [[[1, 0], [0, 1]]], []⟩

/-- A three-row table (one flat column). -/
def tableW3 : DynamicTable :=
  ⟨[⟨"weight", .flat [.int 10, .int 20, .int 30]⟩]⟩

/-- The LFP view of the tutorials: shape (50, 4), storing 200 values. -/
def lfpView : LazyView :=
  ⟨[50, 4], (List.range 200).map (fun k => .int k)⟩

/-- A world holding two open sessions. -/
def worldW : World :=
  ⟨[true, true]⟩

/-- Two units with distinct spike-time sequences and qualities. -/
def pairsW : List (List Value × Value) :=
  [([.float 100, .float 200, .float 300], .str "good"),
   ([.float 400], .str "good")]

/-- The contents of the default-named `Fluorescence` container: one
`RoiResponseSeries` dataset. -/
def flContentsW : Children :=
  .cons "RoiResponseSeries" (.dataset .tagFloat [.float 0, .float 4607182418800017408]) .nil

/-- The earlier children of the `ophys` processing module in the tutorial:
`MotionCorrection` and `ImageSegmentation` precede `Fluorescence`, so the
looked-up container is the third child of its parent. -/
def ophysBeforeW : Children :=
  .cons "MotionCorrection" (.group .nil)
    (.cons "ImageSegmentation"
      (.group (.cons "PlaneSegmentation" (.group .nil) .nil)) .nil)

theorem bytesToNat_natToBytesF (fuel n : Nat) (h : n ≤ fuel) :
    bytesToNat (natToBytesF fuel n) = n := by
  induction fuel generalizing n with
  | zero =>
    interval_cases n
    rfl
  | succ fuel ih =>
    by_cases hn : n = 0
    · subst hn
      simp [natToBytesF, bytesToNat]
    · have hdiv : n / 256 ≤ fuel := by
        have : n / 256 < n := Nat.div_lt_self (Nat.pos_of_ne_zero hn) (by omega)
        omega
      simp only [natToBytesF, hn, if_false, bytesToNat, ih _ hdiv]
      omega

theorem bytesToNat_natToBytes (n : Nat) :
    bytesToNat (natToBytes n) = n :=
  bytesToNat_natToBytesF n n (Nat.le_refl n)

theorem decVal_encVal (v : Value) : decVal (valTag v) (encVal v) = .ok v := by
  cases v with
  | int i =>
    simp only [valTag, encVal, decVal]
    by_cases hi : i < 0
    · simp only [hi, if_true, bytesToNat_natToBytes, Except.ok.injEq, Value.int.injEq,
        if_pos rfl]
      omega
    · simp only [hi, if_false, bytesToNat_natToBytes, Except.ok.injEq, Value.int.injEq]
      norm_num
      omega
  | float bits =>
    simp [valTag, encVal, decVal, bytesToNat_natToBytes]
  | str s =>
    simp only [valTag, encVal, decVal, List.map_map, Except.ok.injEq, Value.str.injEq]
    have hchar : ∀ c : Char, Char.ofNat c.toNat = c := fun c => Char.ofNat_toNat c
    calc String.mk (s.data.map (Char.ofNat ∘ Char.toNat))
        = String.mk (s.data.map id) := by
          congr 1
          exact List.map_congr_left (fun c _ => hchar c)
      _ = s := by simp
  | bool b =>
    cases b <;> simp [valTag, encVal, decVal]

theorem decRegions_enc (tag : TypeTag) (vals : List Value)
    (h : vals.all (fun v => valTag v = tag) = true) :
    decRegions tag (vals.map encVal) = .ok vals := by
  induction vals with
  | nil => rfl
  | cons v vs ih =>
    simp only [List.all_cons, Bool.and_eq_true, decide_eq_true_eq] at h
    have hv : decVal tag (encVal v) = .ok v := by
      rw [← h.1]
      exact decVal_encVal v
    simp only [List.map_cons, decRegions, hv, ih h.2]

mutual

theorem readBack_commit_aux : ∀ n : Node, wellTypedN n = true →
    readBackN (commitN n) = .ok n
  | .dataset tag vals, h => by
    simp only [wellTypedN] at h
    simp only [commitN, readBackN, decRegions_enc tag vals h]
  | .group cs, h => by
    simp only [wellTypedN] at h
    simp only [commitN, readBackN, readBack_commit_children_aux cs h]

theorem readBack_commit_children_aux : ∀ cs : Children, wellTypedC cs = true →
    readBackC (commitC cs) = .ok cs
  | .nil, _ => rfl
  | .cons name c rest, h => by
    simp only [wellTypedC, Bool.and_eq_true] at h
    simp only [commitC, readBackC, readBack_commit_aux c h.1,
      readBack_commit_children_aux rest h.2]

end

theorem appendToCol_ok (c : Column) (cell : Cell) (c2 : Column)
    (h : appendToCol c cell = .ok c2) :
    c2.name = c.name ∧ colLen c2.cdata = colLen c.cdata + 1 := by
  unfold appendToCol at h
  cases hc : c.cdata <;> cases cell <;> simp [hc] at h <;>
    simp [← h, colLen, hc]

theorem appendAll_ok (vals : RowInput) :
    ∀ (cs cs2 : List Column), appendAll vals cs = .ok cs2 →
    List.Forall₂ (fun c c2 => c2.name = c.name ∧ colLen c2.cdata = colLen c.cdata + 1) cs cs2
  | [], cs2, h => by
    simp only [appendAll, Except.ok.injEq] at h
    subst h
    exact List.Forall₂.nil
  | c :: cs, cs2, h => by
    simp only [appendAll] at h
    cases hlk : lookupCell vals c.name with
    | none => simp [hlk] at h
    | some cell =>
      simp only [hlk] at h
      cases hap : appendToCol c cell with
      | error e => simp [hap] at h
      | ok c2 =>
        simp only [hap] at h
        cases hrest : appendAll vals cs with
        | error e => simp [hrest] at h
        | ok cs2' =>
          simp only [hrest, Except.ok.injEq] at h
          subst h
          exact List.Forall₂.cons (appendToCol_ok c cell c2 hap) (appendAll_ok vals cs cs2' hrest)

theorem addRow_ok (t : DynamicTable) (vals : RowInput) (t2 : DynamicTable)
    (h : addRow t vals = .ok t2) :
    List.Forall₂ (fun c c2 => c2.name = c.name ∧ colLen c2.cdata = colLen c.cdata + 1)
      t.cols t2.cols := by
  unfold addRow at h
  by_cases hv : vals.all (fun kv => hasCol t kv.1)
  · simp only [hv, if_true] at h
    cases hap : appendAll vals t.cols with
    | error e => simp [hap] at h
    | ok cs =>
      simp only [hap, Except.ok.injEq] at h
      subst h
      exact appendAll_ok vals t.cols cs hap
  · simp [hv] at h

theorem forall2_mem_right {α β : Type} {R : α → β → Prop} :
    ∀ {xs : List α} {ys : List β}, List.Forall₂ R xs ys → ∀ y ∈ ys, ∃ x ∈ xs, R x y := by
  intro xs ys h
  induction h with
  | nil => intro y hy; cases hy
  | cons hr _ ih =>
    intro y hy
    rcases List.mem_cons.mp hy with rfl | hy2
    · exact ⟨_, List.mem_cons_self _ _, hr⟩
    · obtain ⟨x, hx, hxy⟩ := ih y hy2
      exact ⟨x, List.mem_cons_of_mem _ hx, hxy⟩

theorem addRow_ok_lens (t : DynamicTable) (vals : RowInput) (t2 : DynamicTable) (n : Nat)
    (h : addRow t vals = .ok t2) (hlen : ∀ c ∈ t.cols, colLen c.cdata = n) :
    ∀ c2 ∈ t2.cols, colLen c2.cdata = n + 1 := by
  have hf := addRow_ok t vals t2 h
  intro c2 hc2
  obtain ⟨c, hc, _, hl⟩ := forall2_mem_right hf c2 hc2
  rw [hl, hlen c hc]

theorem runAddRows_lens (rows : List RowInput) :
    ∀ (t : DynamicTable) (n : Nat), (∀ c ∈ t.cols, colLen c.cdata = n) →
    ∀ c ∈ (runAddRows t rows).1.cols, colLen c.cdata = n + (runAddRows t rows).2 := by
  induction rows with
  | nil =>
    intro t n h c hc
    simpa [runAddRows] using h c hc
  | cons r rs ih =>
    intro t n h
    cases har : addRow t r with
    | ok t2 =>
      have h2 := addRow_ok_lens t r t2 n har h
      intro c hc
      simp only [runAddRows, har] at hc ⊢
      have := ih t2 (n + 1) h2 c hc
      omega
    | error e =>
      intro c hc
      simp only [runAddRows, har] at hc ⊢
      exact ih t n h c hc

theorem addRoi_mode_preserved (ps : PlaneSeg) (m : MaskInput) (ps2 : PlaneSeg) (mo : MaskMode)
    (hmode : ps.mode = some mo) (h : addRoi ps m = .ok ps2) : ps2.mode = some mo := by
  unfold addRoi at h
  rw [hmode] at h
  by_cases hm : maskModeOf m = mo
  · simp only [hm, if_true] at h
    cases m <;> simp only [Except.ok.injEq] at h <;> rw [← h]
  · simp [hm] at h

theorem addRoiSeq_mode_preserved (ms : List MaskInput) :
    ∀ (ps ps2 : PlaneSeg) (mo : MaskMode), ps.mode = some mo →
    addRoiSeq ps ms = .ok ps2 → ps2.mode = some mo := by
  induction ms with
  | nil =>
    intro ps ps2 mo hmode h
    simp only [addRoiSeq, Except.ok.injEq] at h
    rw [← h]
    exact hmode
  | cons m ms ih =>
    intro ps ps2 mo hmode h
    simp only [addRoiSeq] at h
    cases hadd : addRoi ps m with
    | error e => simp [hadd] at h
    | ok ps1 =>
      rw [hadd] at h
      exact ih ps1 ps2 mo (addRoi_mode_preserved ps m ps1 mo hmode hadd) h

theorem addRoi_wrong_mode (ps : PlaneSeg) (m : MaskInput) (mo : MaskMode)
    (hmode : ps.mode = some mo) (hm : maskModeOf m ≠ mo) :
    addRoi ps m = .error .InconsistentMaskMode := by
  unfold addRoi
  rw [hmode]
  simp [hm]

theorem addRoi_fresh (ps : PlaneSeg) (m : MaskInput) (ps2 : PlaneSeg)
    (hmode : ps.mode = none) (h : addRoi ps m = .ok ps2) :
    ps2.mode = some (maskModeOf m) ∧ ps2.rows = ps.rows + 1 := by
  unfold addRoi at h
  rw [hmode] at h
  cases m <;> simp only [Except.ok.injEq] at h <;>
    simp [← h, maskModeOf, PlaneSeg.rows] <;> omega

theorem endOffsets_length (ss : List (List Value)) :
    ∀ n : Nat, (endOffsets n ss).length = ss.length := by
  induction ss with
  | nil => intro n; rfl
  | cons s ss ih => intro n; simp [endOffsets, ih]

theorem endOffsets_shift (ss : List (List Value)) :
    ∀ a b : Nat, endOffsets (a + b) ss = (endOffsets b ss).map (a + ·) := by
  induction ss with
  | nil => intro a b; rfl
  | cons s ss ih =>
    intro a b
    simp only [endOffsets, List.map_cons, List.cons.injEq]
    constructor
    · omega
    · have := ih a (b + s.length)
      rw [← this]
      congr 1
      omega

theorem getD_map_add (l : List Nat) :
    ∀ (k a : Nat), k < l.length → (l.map (a + ·)).getD k 0 = a + l.getD k 0 := by
  induction l with
  | nil => intro k a h; cases h
  | cons x xs ih =>
    intro k a h
    cases k with
    | zero => rfl
    | succ j =>
      simp only [List.map_cons, List.getD_cons_succ]
      exact ih j a (by simpa using h)

theorem raggedGet_join (seqs : List (List Value)) :
    ∀ i : Nat, i < seqs.length →
    raggedGet seqs.flatten (endOffsets 0 seqs) i = seqs.getD i [] := by
  induction seqs with
  | nil => intro i h; cases h
  | cons s ss ih =>
    intro i h
    cases i with
    | zero =>
      simp only [raggedGet, endOffsets, List.flatten_cons, if_pos rfl, List.getD_cons_zero,
        Nat.zero_add, List.drop_zero, Nat.sub_zero, List.getD]
      exact List.take_left' rfl
    | succ j =>
      have hj : j < ss.length := by simpa using h
      have hshift : endOffsets s.length ss = (endOffsets 0 ss).map (s.length + ·) := by
        have := endOffsets_shift ss s.length 0
        simpa using this
      have hlo : (((0 : Nat) + s.length) :: endOffsets (0 + s.length) ss).getD j 0 =
          s.length + (if j = 0 then 0 else (endOffsets 0 ss).getD (j - 1) 0) := by
        cases j with
        | zero => simp
        | succ k =>
          simp only [List.getD_cons_succ, Nat.zero_add, hshift]
          have hk : k < (endOffsets 0 ss).length := by
            rw [endOffsets_length]
            omega
          simp only [Nat.succ_sub_one]
          exact getD_map_add (endOffsets 0 ss) k s.length hk
      have hhi : (((0 : Nat) + s.length) :: endOffsets (0 + s.length) ss).getD (j + 1) 0 =
          s.length + (endOffsets 0 ss).getD j 0 := by
        simp only [List.getD_cons_succ, Nat.zero_add, hshift]
        have hj2 : j < (endOffsets 0 ss).length := by
          rw [endOffsets_length]
          omega
        exact getD_map_add (endOffsets 0 ss) j s.length hj2
      simp only [raggedGet, endOffsets, List.flatten_cons, Nat.succ_ne_zero, if_false,
        Nat.succ_sub_one, hlo, hhi]
      have hdrop : (s ++ ss.flatten).drop
          (s.length + (if j = 0 then 0 else (endOffsets 0 ss).getD (j - 1) 0)) =
          ss.flatten.drop (if j = 0 then 0 else (endOffsets 0 ss).getD (j - 1) 0) := by
        rw [List.drop_append]
      rw [hdrop]
      have hsub : s.length + (endOffsets 0 ss).getD j 0 -
          (s.length + (if j = 0 then 0 else (endOffsets 0 ss).getD (j - 1) 0)) =
          (endOffsets 0 ss).getD j 0 -
          (if j = 0 then 0 else (endOffsets 0 ss).getD (j - 1) 0) := by
        omega
      rw [hsub]
      have := ih j hj
      simpa [raggedGet] using this

theorem addRowSt_unit (d : List Value) (idx : List Nat) (qs : List Value)
    (s : List Value) (q : Value) :
    addRowSt ⟨[⟨"spike_times", .ragged d idx⟩, ⟨"quality", .flat qs⟩]⟩ (unitRow s q) =
      (⟨[⟨"spike_times", .ragged (d ++ s) (idx ++ [d.length + s.length])⟩,
         ⟨"quality", .flat (qs ++ [q])⟩]⟩, none) := by
  rfl

theorem addUnits_chars (pairs : List (List Value × Value)) :
    ∀ (d : List Value) (idx : List Nat) (qs : List Value),
    ∃ qs2 : List Value,
    addUnits ⟨[⟨"spike_times", .ragged d idx⟩, ⟨"quality", .flat qs⟩]⟩ pairs =
      ⟨[⟨"spike_times", .ragged (d ++ (pairs.map Prod.fst).flatten)
          (idx ++ endOffsets d.length (pairs.map Prod.fst))⟩,
        ⟨"quality", .flat qs2⟩]⟩ := by
  induction pairs with
  | nil =>
    intro d idx qs
    exact ⟨qs, by simp [addUnits, endOffsets]⟩
  | cons p rest ih =>
    intro d idx qs
    obtain ⟨s, q⟩ := p
    obtain ⟨qs2, hqs2⟩ := ih (d ++ s) (idx ++ [d.length + s.length]) (qs ++ [q])
    refine ⟨qs2, ?_⟩
    simp only [addUnits, addRowSt_unit]
    rw [hqs2]
    simp [endOffsets, List.append_assoc, List.length_append]

theorem rangeList_lt (s t st d : Nat) (hst : 0 < st) (htd : t ≤ d) :
    ∀ i ∈ rangeList s t st, i < d := by
  intro i hi
  simp only [rangeList, List.mem_map, List.mem_range] at hi
  obtain ⟨k, hk, rfl⟩ := hi
  have hk1 : k + 1 ≤ rangeLen s t st := hk
  have h1 : (k + 1) * st ≤ rangeLen s t st * st := Nat.mul_le_mul_right st hk1
  have h2 : rangeLen s t st * st ≤ t - s + st - 1 := by
    unfold rangeLen
    exact Nat.div_mul_le_self _ _
  have h3 : (k + 1) * st = k * st + st := by ring
  have h4 : k * st + st ≤ t - s + st - 1 := by omega
  omega

theorem getD_map_range {α : Type} (n i : Nat) (f : Nat → α) (dflt : α) (h : i < n) :
    ((List.range n).map f).getD i dflt = f i := by
  rw [List.getD_eq_getElem?_getD, List.getElem?_map, List.getElem?_range h]
  rfl

theorem matArr_slice (rs : List (Nat × Nat × Nat)) :
    ∀ (shape : List Nat) (get : List Nat → Value),
    rs.length = shape.length →
    (∀ p ∈ List.zip rs shape, 0 < p.1.2.2 ∧ p.1.2.1 ≤ p.2) →
    matArr get (dimsOfRanges rs) = sliceND rs (matArr get (shape.map List.range)) := by
  induction rs with
  | nil =>
    intro shape get hlen _
    have : shape = [] := List.eq_nil_of_length_eq_zero hlen.symm
    subst this
    rfl
  | cons r rs ih =>
    intro shape get hlen hb
    cases shape with
    | nil => simp at hlen
    | cons d ds =>
      obtain ⟨s, t, st⟩ := r
      have hr : 0 < st ∧ t ≤ d := by
        have := hb ((s, t, st), d) (by simp [List.zip_cons_cons])
        simpa using this
      simp only [dimsOfRanges, List.map_cons, matArr, sliceND]
      congr 1
      apply List.map_congr_left
      intro i hi
      have hid : i < d := rangeList_lt s t st d hr.1 hr.2 i hi
      rw [getD_map_range d i _ _ hid]
      exact ih ds (fun is => get (i :: is)) (by simpa using hlen)
        (fun p hp => hb p (by simp [List.zip_cons_cons, hp]))

theorem matArr_rank (dims : List (List Nat)) :
    ∀ get : List Nat → Value, hasRank dims.length (matArr get dims) = true := by
  induction dims with
  | nil => intro get; rfl
  | cons idxs rest ih =>
    intro get
    simp only [List.length_cons, matArr, hasRank, List.all_eq_true]
    intro a ha
    simp only [List.mem_map] at ha
    obtain ⟨i, _, rfl⟩ := ha
    exact ih (fun is => get (i :: is))

theorem matArr_count_zero (dims : List (List Nat)) :
    ∀ get : List Nat → Value, [] ∈ dims → ndCount dims.length (matArr get dims) = 0 := by
  induction dims with
  | nil => intro get h; cases h
  | cons idxs rest ih =>
    intro get h
    rcases List.mem_cons.mp h with hhead | htail
    · subst hhead
      simp [matArr, ndCount]
    · simp only [List.length_cons, matArr, ndCount]
      apply List.sum_eq_zero
      intro x hx
      simp only [List.map_map, List.mem_map] at hx
      obtain ⟨i, _, rfl⟩ := hx
      exact ih (fun is => get (i :: is)) htail

theorem handleLive_close (w : World) (i : Nat) :
    handleLive (closeSession w i) i = false := by
  unfold handleLive closeSession
  by_cases h : i < w.sessions.length
  · simp [List.getD_eq_getElem?_getD, List.getElem?_set_self, h]
  · rw [List.getD_eq_default]
    simpa using h

theorem dead_stays_dead (w : World) (i : Nat) (op : WOp)
    (hlen : i < w.sessions.length) (hdead : handleLive w i = false) :
    i < (applyWOp w op).sessions.length ∧ handleLive (applyWOp w op) i = false := by
  cases op with
  | wopen =>
    refine ⟨by simp [applyWOp, openSession]; omega, ?_⟩
    unfold handleLive applyWOp openSession
    unfold handleLive at hdead
    simp only
    rw [List.getD_eq_getElem?_getD, List.getElem?_append_left hlen,
      ← List.getD_eq_getElem?_getD]
    exact hdead
  | wclose j =>
    refine ⟨by simpa [applyWOp, closeSession] using hlen, ?_⟩
    unfold handleLive applyWOp closeSession
    unfold handleLive at hdead
    by_cases hij : j = i
    · subst hij
      simp [List.getD_eq_getElem?_getD, List.getElem?_set_self, hlen]
    · simp only
      rw [List.getD_eq_getElem?_getD, List.getElem?_set_ne (by omega),
        ← List.getD_eq_getElem?_getD]
      exact hdead

theorem dead_stays_dead_seq (ops : List WOp) :
    ∀ (w : World) (i : Nat), i < w.sessions.length → handleLive w i = false →
    handleLive (applyWOps w ops) i = false := by
  induction ops with
  | nil => intro w i _ hdead; exact hdead
  | cons op ops ih =>
    intro w i hlen hdead
    obtain ⟨hlen2, hdead2⟩ := dead_stays_dead w i op hlen hdead
    exact ih (applyWOp w op) i hlen2 hdead2

/-! ### The claims -/
/-- C1: for every Group/Dataset/Table tree built under a write-mode Session
and committed, reopening the same file in read mode and reading every value
back yields exactly the written values (bit-for-bit for floats, exact for
integers, strings and booleans): decoding the committed form recovers the
tree. -/
theorem round_trip_commit (n : Node) (h : wellTypedN n = true) :
    readBackN (commitN n) = .ok n :=
  readBack_commit_aux n h

/-- C1 witness: the tutorial trials table with rows (1.0, 5.0, correct=true)
and (6.0, 10.0, correct=false) commits and reads back identically, and its
`correct` column holds 2 rows, row 0 true and row 1 false. -/
theorem round_trip_commit_witness :
    wellTypedN trialsTree = true ∧
    readBackN (commitN trialsTree) = .ok trialsTree ∧
    (∃ c, getChildE trialsChildren "correct" = .ok c ∧
      datasetVals c = [.bool true, .bool false] ∧ (datasetVals c).length = 2) :=
  ⟨by decide, round_trip_commit trialsTree (by decide),
    ⟨.dataset .tagBool [.bool true, .bool false], by rfl, by rfl, by rfl⟩⟩

/-- C2: starting from a Dynamic Table whose columns all hold `n` rows (an
empty table has `n = 0`), after any sequence of `addRow` calls every column
dataset has the same length, equal to `n` plus the number of successful
calls; instantiating the sequence at each prefix gives the invariant at
every point. -/
theorem addRow_rowcount_invariant (t : DynamicTable) (n : Nat) (rows : List RowInput)
    (h : ∀ c ∈ t.cols, colLen c.cdata = n) :
    ∀ c ∈ (runAddRows t rows).1.cols, colLen c.cdata = n + (runAddRows t rows).2 :=
  runAddRows_lens rows t n h

/-- C2 witness: the empty trials table, after the two tutorial rows plus a
failing malformed call, has every column at length 0 + 2. -/
theorem addRow_rowcount_invariant_witness :
    (∀ c ∈ trialsTable0.cols, colLen c.cdata = 0) ∧
    (∀ c ∈ (runAddRows trialsTable0 trialRowsW).1.cols,
      colLen c.cdata = 0 + (runAddRows trialsTable0 trialRowsW).2) :=
  ⟨by decide, addRow_rowcount_invariant trialsTable0 0 trialRowsW (by decide)⟩

/-- C3: `addRow` is atomic: a failing call (for any reason) leaves the table
exactly unchanged, and a successful call appends exactly one row to every
column's backing dataset (names preserved, every length + 1). -/
theorem addRow_atomic (t : DynamicTable) (vals : RowInput) :
    ((addRowSt t vals).2.isSome → (addRowSt t vals).1 = t) ∧
    ((addRowSt t vals).2 = none →
      List.Forall₂ (fun c c2 => c2.name = c.name ∧ colLen c2.cdata = colLen c.cdata + 1)
        t.cols (addRowSt t vals).1.cols) := by
  constructor
  · intro hsome
    unfold addRowSt at hsome ⊢
    cases h : addRow t vals with
    | ok t2 =>
      rw [h] at hsome
      simp at hsome
    | error e => rfl
  · intro hnone
    unfold addRowSt at hnone ⊢
    cases h : addRow t vals with
    | ok t2 => exact addRow_ok t vals t2 h
    | error e =>
      rw [h] at hnone
      simp at hnone

/-- C3 witness: on the two-row trials table, a call naming an undeclared
column leaves the table unchanged, and a well-formed call appends one row
to every column. -/
theorem addRow_atomic_witness :
    (addRowSt trialsTable2 badRowW).1 = trialsTable2 ∧
    List.Forall₂ (fun c c2 => c2.name = c.name ∧ colLen c2.cdata = colLen c.cdata + 1)
      trialsTable2.cols (addRowSt trialsTable2 goodRowW).1.cols :=
  ⟨(addRow_atomic trialsTable2 badRowW).1 (by decide),
   (addRow_atomic trialsTable2 goodRowW).2 (by decide)⟩

/-- C4: on a fresh ROI table, the first added row locks the representation:
the row count becomes one, and after any further successful additions, an
attempt with the other representation fails `InconsistentMaskMode` (so the
failing attempt adds nothing). -/
theorem mask_mode_exclusive (ps0 : PlaneSeg) (first : MaskInput) (ps1 : PlaneSeg)
    (h0 : ps0.mode = none) (h1 : addRoi ps0 first = .ok ps1) :
    ps1.rows = ps0.rows + 1 ∧
    ∀ (rest : List MaskInput) (ps2 : PlaneSeg), addRoiSeq ps1 rest = .ok ps2 →
      ∀ m2 : MaskInput, maskModeOf m2 ≠ maskModeOf first →
        addRoi ps2 m2 = .error .InconsistentMaskMode := by
  obtain ⟨hmode1, hrows1⟩ := addRoi_fresh ps0 first ps1 h0 h1
  refine ⟨hrows1, ?_⟩
  intro rest ps2 hseq m2 hm2
  have hmode2 := addRoiSeq_mode_preserved rest ps1 ps2 (maskModeOf first) hmode1 hseq
  exact addRoi_wrong_mode ps2 m2 (maskModeOf first) hmode2 hm2

/-- C4 witness: adding one image-mask row to a fresh table gives row count
1, and a pixel-mask attempt then fails `InconsistentMaskMode`. -/
theorem mask_mode_exclusive_witness :
    psImage1.rows = psFresh.rows + 1 ∧
    psImage1.rows = 1 ∧
    addRoi psImage1 pixelInputW = .error .InconsistentMaskMode :=
  ⟨(mask_mode_exclusive psFresh imageInputW psImage1 (by rfl) (by rfl)).1,
   by decide,
   (mask_mode_exclusive psFresh imageInputW psImage1 (by rfl) (by rfl)).2
     [] psImage1 (by rfl) pixelInputW (by decide)⟩

/-- C5: `createRegion` fails `IndexOutOfRange` when any index reaches the
row count, and a successfully created region resolves to exactly the
referenced rows in the supplied order. -/
theorem createRegion_resolve (t : DynamicTable) (idx : List Nat) (desc : String) :
    ((∃ i ∈ idx, rowCount t ≤ i) → createRegion t idx desc = .error .IndexOutOfRange) ∧
    (∀ r : TableRegion, createRegion t idx desc = .ok r →
      resolveRegion t r = .ok (idx.map (getRow t))) := by
  constructor
  · rintro ⟨i, hi, hge⟩
    unfold createRegion
    rw [if_neg]
    intro hall
    rw [List.all_eq_true] at hall
    have := hall i hi
    simp at this
    omega
  · intro r hr
    unfold createRegion at hr
    by_cases hall : idx.all (fun i => decide (i < rowCount t))
    · rw [if_pos hall] at hr
      cases hr
      unfold resolveRegion
      rw [if_pos hall]
    · rw [if_neg hall] at hr
      cases hr

/-- C5 witness: on a 3-row table, the region over [0, 1] resolves to rows 0
and 1 in order, and requesting index 3 fails `IndexOutOfRange`. -/
theorem createRegion_resolve_witness :
    createRegion tableW3 [0, 1] "the first of two ROIs" =
      .ok ⟨[0, 1], "the first of two ROIs"⟩ ∧
    resolveRegion tableW3 ⟨[0, 1], "the first of two ROIs"⟩ =
      .ok ([0, 1].map (getRow tableW3)) ∧
    createRegion tableW3 [3] "bad" = .error .IndexOutOfRange :=
  ⟨by rfl,
   (createRegion_resolve tableW3 [0, 1] "the first of two ROIs").2
     ⟨[0, 1], "the first of two ROIs"⟩ (by rfl),
   (createRegion_resolve tableW3 [3] "bad").1 ⟨3, by decide, by decide⟩⟩

/-- C6: for every committed dataset and every in-bounds list of
per-dimension ranges, `readSlice` returns exactly the sub-array obtained by
applying the same ranges to the array `readAll` returns. -/
theorem readSlice_eq_slice_readAll (v : LazyView) (rs : List (Nat × Nat × Nat))
    (h : rangesOk rs v.shape = true) :
    readSlice v rs = .ok (sliceND rs (readAll v)) := by
  unfold readSlice readAll
  rw [if_pos h]
  congr 1
  unfold rangesOk at h
  simp only [Bool.and_eq_true, decide_eq_true_eq, List.all_eq_true] at h
  exact matArr_slice rs v.shape (fetch v)
    h.1 (fun p hp => by
      have := h.2 p hp
      simpa using this)

/-- C6 witness: on the (50, 4) LFP view, the [0:10, 0:3] slice equals the
[0:10, 0:3] sub-array of the full read. -/
theorem readSlice_eq_slice_readAll_witness :
    rangesOk [(0, 10, 1), (0, 3, 1)] lfpView.shape = true ∧
    readSlice lfpView [(0, 10, 1), (0, 3, 1)] =
      .ok (sliceND [(0, 10, 1), (0, 3, 1)] (readAll lfpView)) :=
  ⟨by decide, readSlice_eq_slice_readAll lfpView [(0, 10, 1), (0, 3, 1)] (by decide)⟩

/-- C7: `readSlice` fails `IndexOutOfRange` whenever some range overshoots
its dimension, while an in-bounds zero-length slice succeeds and returns an
array of the dataset's rank containing no elements. -/
theorem readSlice_edge_cases (v : LazyView) (rs : List (Nat × Nat × Nat)) :
    ((∃ p ∈ List.zip rs v.shape, p.2 < p.1.2.1) →
      readSlice v rs = .error .IndexOutOfRange) ∧
    (rangesOk rs v.shape = true → (∃ r ∈ rs, rangeLen r.1 r.2.1 r.2.2 = 0) →
      ∃ a, readSlice v rs = .ok a ∧ hasRank v.shape.length a = true ∧
        ndCount v.shape.length a = 0) := by
  constructor
  · rintro ⟨p, hp, hover⟩
    unfold readSlice
    rw [if_neg]
    intro hok
    unfold rangesOk at hok
    simp only [Bool.and_eq_true, decide_eq_true_eq, List.all_eq_true] at hok
    have := hok.2 p hp
    simp only [Bool.and_eq_true, decide_eq_true_eq] at this
    omega
  · rintro hok ⟨r, hr, hzero⟩
    refine ⟨matArr (fetch v) (dimsOfRanges rs), ?_, ?_, ?_⟩
    · unfold readSlice
      rw [if_pos hok]
    · have hlen : (dimsOfRanges rs).length = v.shape.length := by
        unfold rangesOk at hok
        simp only [Bool.and_eq_true, decide_eq_true_eq] at hok
        simpa [dimsOfRanges] using hok.1
      rw [← hlen]
      exact matArr_rank (dimsOfRanges rs) (fetch v)
    · have hlen : (dimsOfRanges rs).length = v.shape.length := by
        unfold rangesOk at hok
        simp only [Bool.and_eq_true, decide_eq_true_eq] at hok
        simpa [dimsOfRanges] using hok.1
      rw [← hlen]
      apply matArr_count_zero
      unfold dimsOfRanges
      rw [List.mem_map]
      refine ⟨r, hr, ?_⟩
      unfold rangeList
      rw [hzero]
      rfl

/-- C7 witness: on the (50, 4) view, slicing [0:60] in a dimension of 50
fails `IndexOutOfRange`, while the zero-length in-bounds slice [0:0, 0:3]
succeeds with a rank-2 array holding no elements. -/
theorem readSlice_edge_cases_witness :
    readSlice lfpView [(0, 60, 1), (0, 3, 1)] = .error .IndexOutOfRange ∧
    (∃ a, readSlice lfpView [(0, 0, 1), (0, 3, 1)] = .ok a ∧
      hasRank lfpView.shape.length a = true ∧ ndCount lfpView.shape.length a = 0) :=
  ⟨(readSlice_edge_cases lfpView [(0, 60, 1), (0, 3, 1)]).1
     ⟨((0, 60, 1), 50), by decide, by decide⟩,
   (readSlice_edge_cases lfpView [(0, 0, 1), (0, 3, 1)]).2 (by decide)
     ⟨(0, 0, 1), by decide, by decide⟩⟩

/-- C8: after a session is closed, every operation through a handle scoped
to it fails `InvalidHandle`, whatever later open/close operations happen in
the world (including reopening the file in fresh sessions), and closing
again is a no-op. -/
theorem session_close_invalidates {α : Type} (w : World) (i : Nat)
    (hlen : i < w.sessions.length) (ops : List WOp) (op : Unit → Except Err α) :
    handleOp (applyWOps (closeSession w i) ops) i op = .error .InvalidHandle ∧
    closeSession (closeSession w i) i = closeSession w i := by
  constructor
  · have hlen2 : i < (closeSession w i).sessions.length := by
      simpa [closeSession] using hlen
    have hdead := handleLive_close w i
    have hfin := dead_stays_dead_seq ops (closeSession w i) i hlen2 hdead
    unfold handleOp
    rw [hfin]
    rfl
  · unfold closeSession
    rw [List.set_set]

/-- C8 witness: with two open sessions, closing session 0, opening a fresh
session and closing session 1 still leaves every slice read through a
session-0 handle failing `InvalidHandle`, and re-closing session 0 is a
no-op. -/
theorem session_close_invalidates_witness :
    handleOp (applyWOps (closeSession worldW 0) [.wopen, .wclose 1]) 0
      (fun _ => readSlice lfpView [(0, 10, 1), (0, 3, 1)]) = .error .InvalidHandle ∧
    closeSession (closeSession worldW 0) 0 = closeSession worldW 0 :=
  session_close_invalidates worldW 0 (by decide) [.wopen, .wclose 1]
    (fun _ => readSlice lfpView [(0, 10, 1), (0, 3, 1)])

/-- C9: in a units table built by successive `add_unit` calls, reading the
ragged `spike_times` column at row `i` returns exactly the sequence
supplied for row `i`, whatever the other rows' sequences are. -/
theorem ragged_column_read (pairs : List (List Value × Value)) (i : Nat)
    (h : i < pairs.length) :
    spikeTimesAt (addUnits unitsTable0 pairs) i = (pairs.map Prod.fst).getD i [] := by
  obtain ⟨qs2, hch⟩ := addUnits_chars pairs [] [] []
  unfold unitsTable0
  rw [hch]
  simp only [spikeTimesAt, List.nil_append, List.length_nil]
  exact raggedGet_join (pairs.map Prod.fst) i (by simpa using h)

/-- C9 witness: with two units added, reading `spike_times` at row 0
returns only the first unit's three spike times. -/
theorem ragged_column_read_witness :
    spikeTimesAt (addUnits unitsTable0 pairsW) 0 = (pairsW.map Prod.fst).getD 0 [] :=
  ragged_column_read pairsW 0 (by decide)

theorem getChildE_append_fresh (nm : String) (node : Node) (after : Children) :
    ∀ before : Children, nm ∉ namesC before →
    getChildE (appendC before (.cons nm node after)) nm = .ok node
  | .nil, _ => by simp [appendC, getChildE]
  | .cons nm2 c rest, hfresh => by
    simp only [namesC, List.mem_cons, not_or] at hfresh
    simp only [appendC, getChildE]
    rw [if_neg (fun h => hfresh.1 h.symm)]
    exact getChildE_append_fresh nm node after rest hfresh.2

/-- C10: a multi-container constructed without an explicit name gets its
type name as default name, and after commit and reopen, looking the child
up under its parent by that default name succeeds with the same object
(never `NotFound`) — at whatever position the container sits among its
siblings, provided no earlier sibling uses the name (the engine enforces
unique sibling names, spec section 4.3). -/
theorem default_name_lookup (t : MCType) (contents before after : Children)
    (nm : String) (node : Node)
    (hmk : mkMultiContainer t none contents = (nm, node))
    (hfresh : nm ∉ namesC before)
    (hw : wellTypedC (appendC before (.cons nm node after)) = true) :
    nm = mcDefaultName t ∧
    readBackC (commitC (appendC before (.cons nm node after))) =
      .ok (appendC before (.cons nm node after)) ∧
    getChildE (appendC before (.cons nm node after)) nm = .ok node := by
  have hnm : nm = mcDefaultName t := by
    have := congrArg Prod.fst hmk
    simpa [mkMultiContainer] using this.symm
  exact ⟨hnm, readBack_commit_children_aux _ hw,
    getChildE_append_fresh nm node after before hfresh⟩

/-- C10 witness: the tutorial `ophys` module, where `Fluorescence` is the
third child after `MotionCorrection` and `ImageSegmentation`: the unnamed
container is named `Fluorescence`, and after commit and reopen the lookup
under the module by that name returns it. -/
theorem default_name_lookup_witness :
    "Fluorescence" = mcDefaultName .fluorescence ∧
    readBackC (commitC (appendC ophysBeforeW
        (.cons "Fluorescence" (.group flContentsW) .nil))) =
      .ok (appendC ophysBeforeW (.cons "Fluorescence" (.group flContentsW) .nil)) ∧
    getChildE (appendC ophysBeforeW (.cons "Fluorescence" (.group flContentsW) .nil))
      "Fluorescence" = .ok (.group flContentsW) :=
  default_name_lookup .fluorescence flContentsW ophysBeforeW .nil "Fluorescence"
    (.group flContentsW) rfl (by decide) (by decide)

end NWB
